import Mathlib

/-!
Shallow embedding of the ECG signal-to-decision pipeline of
`src/server.py` (class `ECGProcessor`): stream parser, chunker, feature
extractor, classification gateway sequencing, and verdict aggregation,
together with theorems checking the specified properties.

Numeric samples are modelled as rationals (every finite decimal the Python
float parser accepts), window parameters as integers (Python ints), and
fallible steps as `Except String` / `Option` values mirroring the raised
exceptions.
-/

namespace MusicECG

/-- A line of the raw input, as seen by `parse_ecg_data` after the two
operations the source applies to it: the blank test (`line.strip()` empty,
such lines are skipped up front) and numeric interpretation
`float(line.strip(comma))` of the comma-stripped text.  A line is blank,
fails numeric interpretation (`malformed`, a `ValueError`), or yields a
finite numeric value, modelled as a rational. -/
inductive Line where
  | blank : Line
  | malformed : Line
  | num : ℚ → Line
deriving DecidableEq, Repr

/-- The loop of `ECGProcessor.parse_ecg_data` over the split lines, carrying
the `data_started` flag: blank lines are skipped; before data has started a
malformed line is skipped and a numeric line turns the flag on exactly when
its value lies in `[-1, 1]`; whenever the flag is on after the header block,
a numeric line is appended (so the transitioning value itself is the first
sample) and a malformed line is skipped. -/
def parseLoop : Bool → List Line → List ℚ
  | _, [] => []
  | started, Line.blank :: rest => parseLoop started rest
  | started, Line.malformed :: rest => parseLoop started rest
  | started, Line.num q :: rest =>
    let started2 := started || (decide (-1 ≤ q) && decide (q ≤ 1))
    if started2 then q :: parseLoop started2 rest else parseLoop started2 rest

/-- `ECGProcessor.parse_ecg_data`: run the two-phase state machine on the
lines of the input, starting in the header-skip state (`data_started =
False`). -/
def parse_ecg_data (lines : List Line) : List ℚ := parseLoop false lines

/-- Whether a line triggers the header-to-data transition of
`parse_ecg_data`: it parses as a number whose value lies in `[-1, 1]`. -/
def isTransition : Line → Bool
  | Line.num q => decide (-1 ≤ q) && decide (q ≤ 1)
  | _ => false

/-- Number of elements of the Python `range(start, stop, step)`; meaningful
for `step ≠ 0` (the `step = 0` case is rejected before this is used). -/
def pyRangeLen (start stop step : ℤ) : ℕ :=
  if 0 < step then (stop - start + step - 1).toNat / step.toNat
  else (start - stop - step - 1).toNat / (-step).toNat

/-- The Python `range(start, stop, step)` as a list, for `step ≠ 0`. -/
def pyRange (start stop step : ℤ) : List ℤ :=
  (List.range (pyRangeLen start stop step)).map fun k : ℕ =>
    start + (k : ℤ) * step

/-- Clamp one end of a Python slice to an index into a list of length `n`:
negative ends count from the back, both ends are clamped to `[0, n]`. -/
def sliceIdx (n : ℕ) (i : ℤ) : ℕ :=
  if i < 0 then ((n : ℤ) + i).toNat else min i.toNat n

/-- Python slicing `l[i:j]` (unit step) with negative-index and clamping
semantics; numpy basic slicing of a 1-d array follows the same rules. -/
def pySlice {α : Type _} (l : List α) (i j : ℤ) : List α :=
  (l.take (sliceIdx l.length j)).drop (sliceIdx l.length i)

/-- `ECGProcessor.get_chunks`: collect the windows
`data[i : i + chunk_size]` for `i in range(0, len(data) - chunk_size + 1,
step)` where `step = chunk_size - overlap`.  Python `range` raises
`ValueError` when `step = 0`, modelled as `none`. -/
def get_chunks {α : Type _} (chunk_size overlap : ℤ) (data : List α) :
    Option (List (List α)) :=
  let step := chunk_size - overlap
  if step = 0 then none
  else some ((pyRange 0 ((data.length : ℤ) - chunk_size + 1) step).map
    fun i => pySlice data i (i + chunk_size))

/-- Arithmetic mean as computed by `np.mean`: sum divided by length (the
empty window, on which numpy would warn and return NaN, never reaches the
extractor). -/
def np_mean (l : List ℚ) : ℚ := l.sum / l.length

/-- The k-th central moment of the window with the population convention
(divide by n): the building block of `np.std`, `scipy.stats.skew` and
`scipy.stats.kurtosis` (all with their default, bias-uncorrected
settings). -/
def centralMoment (k : ℕ) (l : List ℚ) : ℚ :=
  (l.map fun x => (x - np_mean l) ^ k).sum / l.length

/-- `np.std` with its default `ddof = 0`: the population standard deviation,
the square root of the second central moment. -/
noncomputable def np_std (l : List ℚ) : ℝ := Real.sqrt (centralMoment 2 l)

/-- `scipy.stats.skew` with its default `bias = True`: `m3 / m2 ** 1.5`
where `mk` is the k-th central moment (no bias correction). -/
noncomputable def scipy_skew (l : List ℚ) : ℝ :=
  (centralMoment 3 l : ℝ) / (centralMoment 2 l : ℝ) ^ ((3 : ℝ) / 2)

/-- `scipy.stats.kurtosis` with its defaults `fisher = True, bias = True`:
`m4 / m2 ** 2 - 3`, the excess kurtosis with no bias correction. -/
def scipy_kurtosis (l : List ℚ) : ℚ :=
  centralMoment 4 l / centralMoment 2 l ^ 2 - 3

/-- Largest element of a window (`np.max`; the windows fed to it are never
empty, the base value 0 is junk). -/
def listMax : List ℚ → ℚ
  | [] => 0
  | a :: t => t.foldl max a

/-- Smallest element of a window (`np.min`; same remark as `listMax`). -/
def listMin : List ℚ → ℚ
  | [] => 0
  | a :: t => t.foldl min a

/-- `np.ptp`: peak-to-peak range, maximum minus minimum. -/
def np_ptp (l : List ℚ) : ℚ := listMax l - listMin l

/-- `ECGProcessor.extract_statistical_features`: the five time-domain
statistics, in the order of the source list. -/
noncomputable def extract_statistical_features (chunk : List ℚ) : List ℝ :=
  [(np_mean chunk : ℝ), np_std chunk, scipy_skew chunk,
    (scipy_kurtosis chunk : ℝ), (np_ptp chunk : ℝ)]

/-- The distinct values of a list in order of first appearance.  Models the
index of the pandas `value_counts` grouping step before sorting.  The order
produced by pandas on count ties is in fact not specified by the library
(hash-bucket key order followed by an unstable descending sort); the model
fixes first-appearance order as a deterministic representative — no theorem
below about the pipeline depends on the order within a tie group. -/
def firstKeys {α : Type _} [DecidableEq α] : List α → List α
  | [] => []
  | a :: t => a :: (firstKeys t).filter (fun b => b ≠ a)

/-- Insert a keyed count into a list sorted by descending count, before the
first entry whose count is not larger, so that equal counts keep their
existing relative order. -/
def insertByCount {α : Type _} (p : α × ℕ) : List (α × ℕ) → List (α × ℕ)
  | [] => [p]
  | q :: t => if p.2 < q.2 then q :: insertByCount p t else p :: q :: t

/-- Stable insertion sort by descending count. -/
def sortByCountDesc {α : Type _} : List (α × ℕ) → List (α × ℕ)
  | [] => []
  | p :: t => insertByCount p (sortByCountDesc t)

/-- `pd.Series(predictions).value_counts()`: pair every distinct label with
its number of occurrences and sort by descending count (see `firstKeys` for
the tie-order caveat).  The source reads the labels back through
`.index.tolist()` and the counts through `.tolist()`. -/
def value_counts {α : Type _} [DecidableEq α] (l : List α) : List (α × ℕ) :=
  sortByCountDesc ((firstKeys l).map fun k => (k, l.count k))

/-- The ranked verdict dictionary assembled by `process_and_predict`: the
distinct predicted labels, the aligned counts, and the number of chunks
processed. -/
structure Summary (L : Type _) where
  predictions : List L
  counts : List ℕ
  chunks_processed : ℕ
deriving DecidableEq

instance {ε α : Type _} [DecidableEq ε] [DecidableEq α] :
    DecidableEq (Except ε α) := fun x y =>
  match x, y with
  | Except.error a, Except.error b =>
    if h : a = b then Decidable.isTrue (by rw [h])
    else Decidable.isFalse (by simp [h])
  | Except.error _, Except.ok _ => Decidable.isFalse (by simp)
  | Except.ok _, Except.error _ => Decidable.isFalse (by simp)
  | Except.ok a, Except.ok b =>
    if h : a = b then Decidable.isTrue (by rw [h])
    else Decidable.isFalse (by simp [h])

/-- The per-chunk loop of `process_and_predict`: extract features, run them
through the external scaler (`normalize`) and the external model
(`classify`) — the two capabilities of the classification gateway, passed
as functions; the `reshape(1, -1)` plumbing and the `[0]` projection are
part of those capabilities — collecting predictions in chunk order.  The
first raised exception aborts the loop and propagates. -/
noncomputable def predictChunks {L : Type _}
    (normalize : List ℝ → Except String (List ℝ))
    (classify : List ℝ → Except String L) :
    List (List ℚ) → Except String (List L)
  | [] => Except.ok []
  | c :: rest =>
    match normalize (extract_statistical_features c) with
    | Except.error e => Except.error e
    | Except.ok fs =>
      match classify fs with
      | Except.error e => Except.error e
      | Except.ok p =>
        match predictChunks normalize classify rest with
        | Except.error e => Except.error e
        | Except.ok ps => Except.ok (p :: ps)

/-- `ECGProcessor.process_and_predict`: parse, chunk, raise
`ValueError("Not enough data for analysis")` on zero windows, predict every
chunk, aggregate with `value_counts`.  The body runs inside
`try ... except Exception as e: raise RuntimeError(...)`, so any exception
raised by a stage — including the `range` `ValueError` when the step is
zero — is re-raised with the prefix `"Error processing ECG data: "`,
modelled as the error string of the returned `Except`. -/
noncomputable def process_and_predict {L : Type _} [DecidableEq L]
    (normalize : List ℝ → Except String (List ℝ))
    (classify : List ℝ → Except String L)
    (chunk_size overlap : ℤ) (raw : List Line) : Except String (Summary L) :=
  let body : Except String (Summary L) :=
    match get_chunks chunk_size overlap (parse_ecg_data raw) with
    | none => Except.error "range() arg 3 must not be zero"
    | some chunks =>
      if chunks.isEmpty then Except.error "Not enough data for analysis"
      else
        match predictChunks normalize classify chunks with
        | Except.error e => Except.error e
        | Except.ok preds =>
          let vc := value_counts preds
          Except.ok ⟨vc.map Prod.fst, vc.map Prod.snd, chunks.length⟩
  match body with
  | Except.ok s => Except.ok s
  | Except.error e => Except.error ("Error processing ECG data: " ++ e)

lemma parseLoop_false_cons_of_not_transition (l : Line) (rest : List Line)
    (h : isTransition l = false) :
    parseLoop false (l :: rest) = parseLoop false rest := by
  cases l with
  | blank => rfl
  | malformed => rfl
  | num q =>
    simp only [isTransition] at h
    simp [parseLoop, h]

lemma parse_header_discard (pre rest : List Line)
    (h : ∀ l ∈ pre, isTransition l = false) :
    parse_ecg_data (pre ++ rest) = parse_ecg_data rest := by
  induction pre with
  | nil => rfl
  | cons l pre ih =>
    have hl : isTransition l = false := h l (by simp)
    have hpre : ∀ x ∈ pre, isTransition x = false := fun x hx => h x (by simp [hx])
    calc parse_ecg_data ((l :: pre) ++ rest)
        = parseLoop false (pre ++ rest) :=
          parseLoop_false_cons_of_not_transition l (pre ++ rest) hl
      _ = parse_ecg_data rest := ih hpre

lemma parse_transition (q : ℚ) (rest : List Line) (h1 : -1 ≤ q) (h2 : q ≤ 1) :
    parse_ecg_data (Line.num q :: rest) = q :: parseLoop true rest := by
  simp [parse_ecg_data, parseLoop, h1, h2]

lemma parseLoop_false_head : ∀ (lines : List Line) (q : ℚ) (t : List ℚ),
    parseLoop false lines = q :: t → -1 ≤ q ∧ q ≤ 1 := by
  intro lines
  induction lines with
  | nil => intro q t h; exact absurd h (by simp [parseLoop])
  | cons l rest ih =>
    intro q t h
    cases l with
    | blank => exact ih q t h
    | malformed => exact ih q t h
    | num r =>
      by_cases hr : -1 ≤ r ∧ r ≤ 1
      · rw [show parseLoop false (Line.num r :: rest) = r :: parseLoop true rest
          from parse_transition r rest hr.1 hr.2] at h
        obtain ⟨rfl, -⟩ := List.cons.inj h
        exact hr
      · have hnt : isTransition (Line.num r) = false := by
          simpa [isTransition] using hr
        rw [parseLoop_false_cons_of_not_transition (Line.num r) rest hnt] at h
        exact ih q t h

lemma parseLoop_false_empty (lines : List Line)
    (h : ∀ l ∈ lines, isTransition l = false) : parse_ecg_data lines = [] := by
  have := parse_header_discard lines [] h
  simpa using this

/-- C3: `parse_ecg_data` stays in the header-skip state, discarding every
line that does not parse as a number and every successfully parsed value
outside `[-1, 1]`, until the first line whose parsed value lies within
`[-1, 1]` inclusive; that first in-range value is included as the first
sample and the parser transitions to the data state (`parseLoop true`).
Consequently, whenever the parser returns a non-empty sample sequence, its
first element lies in `[-1, 1]`. -/
theorem parse_header_skip_first_sample :
    (∀ pre rest : List Line, (∀ l ∈ pre, isTransition l = false) →
      parse_ecg_data (pre ++ rest) = parse_ecg_data rest) ∧
    (∀ (q : ℚ) (rest : List Line), -1 ≤ q → q ≤ 1 →
      parse_ecg_data (Line.num q :: rest) = q :: parseLoop true rest) ∧
    (∀ (lines : List Line) (q : ℚ) (t : List ℚ),
      parse_ecg_data lines = q :: t → -1 ≤ q ∧ q ≤ 1) :=
  ⟨parse_header_discard, parse_transition, parseLoop_false_head⟩

/-- Witness for C3: a malformed header line and an out-of-range value 2 are
discarded; the first in-range value 1 opens the data state and heads the
result. -/
theorem parse_header_skip_first_sample_inst :
    parse_ecg_data ([Line.malformed, Line.num 2] ++ [Line.num 1, Line.num 5]) =
      parse_ecg_data [Line.num 1, Line.num 5] ∧
    parse_ecg_data [Line.num 1, Line.num 5] = 1 :: parseLoop true [Line.num 5] ∧
    (-1 ≤ (1 : ℚ) ∧ (1 : ℚ) ≤ 1) :=
  ⟨parse_header_skip_first_sample.1 [Line.malformed, Line.num 2]
      [Line.num 1, Line.num 5] (by decide),
    parse_header_skip_first_sample.2.1 1 [Line.num 5] (by norm_num) (by norm_num),
    parse_header_skip_first_sample.2.2 [Line.num 1, Line.num 5] 1 [5] (by decide)⟩

/-- C4: `parse_ecg_data` is a total function of the input lines (the
embedding returns a plain list, never an error): the result is empty when
no line ever satisfies the header-skip transition condition; after the
data-state transition every line that parses as a number is appended
regardless of magnitude and every malformed or blank line is silently
skipped; e.g. the lines 0.1, malformed, 0.2 parse to [0.1, 0.2]. -/
theorem parse_total_lenient :
    (∀ lines : List Line, (∀ l ∈ lines, isTransition l = false) →
      parse_ecg_data lines = []) ∧
    (∀ (q : ℚ) (rest : List Line),
      parseLoop true (Line.num q :: rest) = q :: parseLoop true rest) ∧
    (∀ rest : List Line,
      parseLoop true (Line.malformed :: rest) = parseLoop true rest) ∧
    (∀ rest : List Line,
      parseLoop true (Line.blank :: rest) = parseLoop true rest) ∧
    parse_ecg_data [Line.num (1/10), Line.malformed, Line.num (2/10)] =
      [1/10, 2/10] := by
  refine ⟨parseLoop_false_empty, fun q rest => by simp [parseLoop],
    fun rest => rfl, fun rest => rfl, ?_⟩
  rw [parse_transition (1/10) _ (by norm_num) (by norm_num)]
  simp [parseLoop]

/-- Witness for C4: an input whose lines never satisfy the transition
condition (blank, out-of-range 3, malformed) parses to the empty
sequence. -/
theorem parse_total_lenient_inst :
    parse_ecg_data [Line.blank, Line.num 3, Line.malformed] = [] :=
  parse_total_lenient.1 [Line.blank, Line.num 3, Line.malformed] (by decide)

lemma pySlice_eq_drop_take {α : Type _} (l : List α) (i c : ℕ)
    (h : i + c ≤ l.length) :
    pySlice l (i : ℤ) ((i : ℤ) + (c : ℤ)) = (l.drop i).take c := by
  have h1 : sliceIdx l.length (i : ℤ) = i := by
    rw [sliceIdx, if_neg (by omega)]
    omega
  have h2 : sliceIdx l.length ((i : ℤ) + (c : ℤ)) = i + c := by
    rw [sliceIdx, if_neg (by omega)]
    omega
  rw [pySlice, h1, h2, ← List.take_drop]

/-- C1: on any sample sequence at least one window long and any parameters
with `0 ≤ overlap < window size`, `get_chunks` returns exactly
`(len - window_size) / step + 1` windows (floor division,
`step = window_size - overlap`), the k-th window being the contiguous
sub-sequence of length exactly `window_size` starting at offset
`k * step`. -/
theorem chunk_count_windows {α : Type _} (chunk_size overlap : ℤ)
    (data : List α) (h0 : 0 ≤ overlap) (h1 : overlap < chunk_size)
    (h2 : chunk_size ≤ (data.length : ℤ)) :
    ∃ ws, get_chunks chunk_size overlap data = some ws ∧
      ws = (List.range
          ((data.length - chunk_size.toNat) / (chunk_size - overlap).toNat
            + 1)).map
        (fun k =>
          (data.drop (k * (chunk_size - overlap).toNat)).take
            chunk_size.toNat) ∧
      ∀ w ∈ ws, w.length = chunk_size.toNat := by
  have hspos : 0 < (chunk_size - overlap).toNat := by omega
  have hcn : chunk_size.toNat ≤ data.length := by omega
  have hlen : pyRangeLen 0 ((data.length : ℤ) - chunk_size + 1)
      (chunk_size - overlap)
      = (data.length - chunk_size.toNat) / (chunk_size - overlap).toNat
        + 1 := by
    rw [pyRangeLen, if_pos (by omega)]
    have hnum : ((data.length : ℤ) - chunk_size + 1 - 0
        + (chunk_size - overlap) - 1).toNat
        = (data.length - chunk_size.toNat) + (chunk_size - overlap).toNat := by
      omega
    rw [hnum, Nat.add_div_right _ hspos]
  have hmain : (pyRange 0 ((data.length : ℤ) - chunk_size + 1)
        (chunk_size - overlap)).map
        (fun i => pySlice data i (i + chunk_size))
      = (List.range
          ((data.length - chunk_size.toNat) / (chunk_size - overlap).toNat
            + 1)).map
        (fun k =>
          (data.drop (k * (chunk_size - overlap).toNat)).take
            chunk_size.toNat) := by
    rw [pyRange, hlen, List.map_map]
    refine List.map_congr_left ?_
    intro k hk
    simp only [List.mem_range] at hk
    have hk2 : k ≤ (data.length - chunk_size.toNat)
        / (chunk_size - overlap).toNat := by omega
    have hks : k * (chunk_size - overlap).toNat
        ≤ data.length - chunk_size.toNat :=
      le_trans (Nat.mul_le_mul_right _ hk2) (Nat.div_mul_le_self _ _)
    have hbound : k * (chunk_size - overlap).toNat + chunk_size.toNat
        ≤ data.length := by omega
    have hi : (0 : ℤ) + (k : ℤ) * (chunk_size - overlap)
        = ((k * (chunk_size - overlap).toNat : ℕ) : ℤ) := by
      have hcast : (((chunk_size - overlap).toNat : ℕ) : ℤ)
          = chunk_size - overlap := by omega
      push_cast
      rw [hcast]
      ring
    simp only [Function.comp]
    rw [hi]
    have hj : ((k * (chunk_size - overlap).toNat : ℕ) : ℤ) + chunk_size
        = ((k * (chunk_size - overlap).toNat : ℕ) : ℤ)
          + ((chunk_size.toNat : ℕ) : ℤ) := by omega
    rw [hj, pySlice_eq_drop_take data _ _ hbound]
  refine ⟨_, ?_, rfl, ?_⟩
  · rw [get_chunks]
    simp only [if_neg (show ¬(chunk_size - overlap = 0) by omega)]
    rw [hmain]
  · intro w hw
    simp only [List.mem_map, List.mem_range] at hw
    obtain ⟨k, hk, rfl⟩ := hw
    rw [List.length_take, List.length_drop]
    have hk2 : k ≤ (data.length - chunk_size.toNat)
        / (chunk_size - overlap).toNat := by omega
    have hks : k * (chunk_size - overlap).toNat
        ≤ data.length - chunk_size.toNat :=
      le_trans (Nat.mul_le_mul_right _ hk2) (Nat.div_mul_le_self _ _)
    omega

/-- Witness for C1: 5 samples, window 2, overlap 0 give floor(3/2)+1 = 2
windows of length 2 at offsets 0 and 2. -/
theorem chunk_count_windows_inst :
    ∃ ws, get_chunks (2 : ℤ) 0 ([5, 6, 7, 8, 9] : List ℚ) = some ws ∧
      ws = (List.range
          ((([5, 6, 7, 8, 9] : List ℚ).length - (2 : ℤ).toNat)
            / ((2 : ℤ) - 0).toNat + 1)).map
        (fun k =>
          (([5, 6, 7, 8, 9] : List ℚ).drop (k * ((2 : ℤ) - 0).toNat)).take
            (2 : ℤ).toNat) ∧
      ∀ w ∈ ws, w.length = (2 : ℤ).toNat :=
  chunk_count_windows 2 0 [5, 6, 7, 8, 9] (by norm_num) (by norm_num)
    (by decide)

/-- C2: when the parsed sample sequence is shorter than the window size
(under the documented parameter contract), `get_chunks` returns the empty
window list and `process_and_predict` fails with the wrapped
insufficient-data error instead of returning a summary. -/
theorem chunk_short_input_insufficient_data {L : Type _} [DecidableEq L]
    (normalize : List ℝ → Except String (List ℝ))
    (classify : List ℝ → Except String L)
    (chunk_size overlap : ℤ) (raw : List Line)
    (h0 : 0 ≤ overlap) (h1 : overlap < chunk_size)
    (h2 : ((parse_ecg_data raw).length : ℤ) < chunk_size) :
    get_chunks chunk_size overlap (parse_ecg_data raw) = some [] ∧
    process_and_predict normalize classify chunk_size overlap raw =
      Except.error "Error processing ECG data: Not enough data for analysis" := by
  have hchunks : get_chunks chunk_size overlap (parse_ecg_data raw) = some [] := by
    rw [get_chunks]
    simp only [if_neg (show ¬(chunk_size - overlap = 0) by omega)]
    have hz : pyRangeLen 0 (((parse_ecg_data raw).length : ℤ) - chunk_size + 1)
        (chunk_size - overlap) = 0 := by
      rw [pyRangeLen, if_pos (by omega)]
      exact Nat.div_eq_of_lt (by omega)
    rw [pyRange, hz]
    simp
  refine ⟨hchunks, ?_⟩
  rw [process_and_predict]
  simp only [hchunks]
  rfl

/-- Witness for C2: one in-range sample with window size 3 yields zero
windows and the insufficient-data failure. -/
theorem chunk_short_input_insufficient_data_inst :
    get_chunks 3 0 (parse_ecg_data [Line.num 1]) = some [] ∧
    process_and_predict (fun v => Except.ok v) (fun _ => Except.ok (0 : ℕ))
      3 0 [Line.num 1] =
      Except.error "Error processing ECG data: Not enough data for analysis" :=
  chunk_short_input_insufficient_data _ _ 3 0 [Line.num 1] (by norm_num)
    (by norm_num) (by decide)

/-- Counterexample to C10 as stated: with overlap 15 exceeding window size
10 (step -5) and only 3 samples, `get_chunks` does NOT return an empty
window sequence — the negative-step Python range is non-empty because the
stop value 3 - 10 + 1 is negative, and the clamped slices produce two
(short) windows. -/
theorem get_chunks_negative_step_nonempty :
    get_chunks (10 : ℤ) 15 ([0, 0, 0] : List ℚ) =
      some [[0, 0, 0], [0, 0, 0]] ∧
    some [[0, 0, 0], [0, 0, 0]] ≠ some ([] : List (List ℚ)) := by decide

/-- C10 as amended: with overlap equal to the window size (step 0)
`get_chunks` fails with the range error for every sample sequence; with
overlap exceeding the window size (step negative) it returns an empty
window sequence provided the sample sequence has at least window_size - 1
samples (so that the range stop is not negative) — the case the
counterexample removes. -/
theorem get_chunks_out_of_contract {α : Type _} (chunk_size overlap : ℤ)
    (data : List α) (hov : chunk_size ≤ overlap) :
    (overlap = chunk_size → get_chunks chunk_size overlap data = none) ∧
    (chunk_size < overlap → chunk_size - 1 ≤ (data.length : ℤ) →
      get_chunks chunk_size overlap data = some []) := by
  constructor
  · intro h
    rw [get_chunks]
    simp [h]
  · intro hlt hlen
    rw [get_chunks]
    simp only [if_neg (show ¬(chunk_size - overlap = 0) by omega)]
    have hz : pyRangeLen 0 ((data.length : ℤ) - chunk_size + 1)
        (chunk_size - overlap) = 0 := by
      rw [pyRangeLen, if_neg (show ¬(0 < chunk_size - overlap) by omega)]
      exact Nat.div_eq_of_lt (by omega)
    rw [pyRange, hz]
    simp

/-- Witness for the amended C10: overlap 3 = window 3 errors; overlap 5 >
window 3 on 3 ≥ 2 samples gives the empty window list. -/
theorem get_chunks_out_of_contract_inst :
    get_chunks (3 : ℤ) 3 ([0] : List ℚ) = none ∧
    get_chunks (3 : ℤ) 5 ([0, 0, 0] : List ℚ) = some [] :=
  ⟨(get_chunks_out_of_contract 3 3 [0] (by norm_num)).1 rfl,
    (get_chunks_out_of_contract 3 5 [0, 0, 0] (by norm_num)).2 (by norm_num)
      (by decide)⟩

section Aggregation

variable {α : Type _} [DecidableEq α]

lemma insertByCount_perm (p : α × ℕ) (t : List (α × ℕ)) :
    List.Perm (insertByCount p t) (p :: t) := by
  induction t with
  | nil => exact List.Perm.refl _
  | cons q t ih =>
    rw [insertByCount]
    by_cases h : p.2 < q.2
    · rw [if_pos h]
      exact (ih.cons q).trans (List.Perm.swap p q t)
    · rw [if_neg h]

lemma sortByCountDesc_perm (l : List (α × ℕ)) :
    List.Perm (sortByCountDesc l) l := by
  induction l with
  | nil => exact List.Perm.refl _
  | cons p t ih =>
    rw [sortByCountDesc]
    exact (insertByCount_perm p _).trans (ih.cons p)

lemma insertByCount_sorted (p : α × ℕ) (t : List (α × ℕ))
    (ht : t.Pairwise (fun a b : α × ℕ => b.2 ≤ a.2)) :
    (insertByCount p t).Pairwise (fun a b : α × ℕ => b.2 ≤ a.2) := by
  induction t with
  | nil => simp [insertByCount]
  | cons q t ih =>
    rw [insertByCount]
    obtain ⟨hq, ht2⟩ := List.pairwise_cons.mp ht
    by_cases h : p.2 < q.2
    · rw [if_pos h]
      refine List.pairwise_cons.mpr ⟨?_, ih ht2⟩
      intro b hb
      rcases List.mem_cons.mp ((insertByCount_perm p t).subset hb) with rfl | hb2
      · exact le_of_lt h
      · exact hq b hb2
    · rw [if_neg h]
      refine List.pairwise_cons.mpr ⟨?_, ht⟩
      intro b hb
      rcases List.mem_cons.mp hb with rfl | hb
      · omega
      · exact le_trans (hq b hb) (by omega)

lemma sortByCountDesc_sorted (l : List (α × ℕ)) :
    (sortByCountDesc l).Pairwise (fun a b : α × ℕ => b.2 ≤ a.2) := by
  induction l with
  | nil => simp [sortByCountDesc]
  | cons p t ih =>
    rw [sortByCountDesc]
    exact insertByCount_sorted p _ ih

lemma mem_firstKeys {a : α} : ∀ {l : List α}, a ∈ firstKeys l ↔ a ∈ l := by
  intro l
  induction l with
  | nil => simp [firstKeys]
  | cons b t ih =>
    simp only [firstKeys, List.mem_cons, List.mem_filter]
    constructor
    · rintro (rfl | ⟨h, -⟩)
      · exact Or.inl rfl
      · exact Or.inr (ih.mp h)
    · rintro (rfl | h)
      · exact Or.inl rfl
      · by_cases hab : a = b
        · exact Or.inl hab
        · exact Or.inr ⟨ih.mpr h, by simp [hab]⟩

lemma firstKeys_nodup : ∀ l : List α, (firstKeys l).Nodup := by
  intro l
  induction l with
  | nil => simp [firstKeys]
  | cons b t ih =>
    rw [firstKeys]
    refine List.Nodup.cons (fun hmem => ?_) (ih.filter _)
    have := (List.mem_filter.mp hmem).2
    simp at this

lemma firstKeys_filter_ne (a : α) : ∀ t : List α,
    (firstKeys t).filter (fun b => b ≠ a)
      = firstKeys (t.filter (fun b => b ≠ a)) := by
  intro t
  induction t with
  | nil => rfl
  | cons b s ih =>
    by_cases hba : b = a
    · subst hba
      rw [firstKeys, List.filter_cons, List.filter_cons,
        if_neg (by simp), if_neg (by simp), List.filter_filter]
      rw [show (fun x => decide (x ≠ b) && decide (x ≠ b))
          = fun x => decide (x ≠ b) from funext fun x => by
        cases decide (x ≠ b) <;> rfl]
      exact ih
    · rw [firstKeys, List.filter_cons, List.filter_cons,
        if_pos (by simp [hba]), if_pos (by simp [hba]), firstKeys]
      congr 1
      rw [List.filter_filter, ← ih, List.filter_filter]
      congr 1
      funext x
      cases decide (x ≠ a) <;> cases decide (x ≠ b) <;> rfl

lemma length_eq_count_add_filter (a : α) : ∀ t : List α,
    t.length = t.count a + (t.filter (fun b => b ≠ a)).length := by
  intro t
  induction t with
  | nil => rfl
  | cons b s ih =>
    by_cases hba : b = a
    · subst hba
      rw [List.filter_cons, if_neg (by simp), List.count_cons_self,
        List.length_cons]
      omega
    · rw [List.filter_cons, if_pos (by simp [hba]),
        List.count_cons_of_ne (Ne.symm hba), List.length_cons,
        List.length_cons]
      omega

lemma count_filter_ne (a k : α) (hka : k ≠ a) : ∀ t : List α,
    (t.filter (fun b => b ≠ a)).count k = t.count k := by
  intro t
  induction t with
  | nil => rfl
  | cons b s ih =>
    by_cases hba : b = a
    · subst hba
      rw [List.filter_cons, if_neg (by simp), ih,
        List.count_cons_of_ne hka]
    · rw [List.filter_cons, if_pos (by simp [hba])]
      by_cases hkb : k = b
      · subst hkb
        rw [List.count_cons_self, List.count_cons_self, ih]
      · rw [List.count_cons_of_ne hkb, List.count_cons_of_ne hkb, ih]

lemma sum_count_firstKeys_aux : ∀ (n : ℕ) (l : List α), l.length ≤ n →
    ((firstKeys l).map fun k => l.count k).sum = l.length := by
  intro n
  induction n with
  | zero =>
    intro l hl
    rw [List.length_eq_zero.mp (Nat.le_zero.mp hl)]
    rfl
  | succ n ih =>
    intro l hl
    cases l with
    | nil => rfl
    | cons a t =>
      rw [firstKeys, List.map_cons, List.sum_cons, firstKeys_filter_ne a t]
      have hcongr : (firstKeys (t.filter fun b => b ≠ a)).map
            (fun k => (a :: t).count k)
          = (firstKeys (t.filter fun b => b ≠ a)).map
            (fun k => (t.filter fun b => b ≠ a).count k) := by
        refine List.map_congr_left ?_
        intro k hk
        have hk2 : k ∈ t.filter fun b => b ≠ a := mem_firstKeys.mp hk
        have hka : k ≠ a := by
          have := (List.mem_filter.mp hk2).2
          simpa using this
        rw [List.count_cons_of_ne hka, count_filter_ne a k hka t]
      rw [hcongr, ih _ (by
        have := List.length_filter_le (fun b => decide (b ≠ a)) t
        simp only [List.length_cons] at hl
        omega)]
      rw [List.count_cons_self]
      have := length_eq_count_add_filter a t
      simp only [List.length_cons]
      omega

lemma sum_count_firstKeys (l : List α) :
    ((firstKeys l).map fun k => l.count k).sum = l.length :=
  sum_count_firstKeys_aux l.length l le_rfl

lemma value_counts_keys_nodup (l : List α) :
    ((value_counts l).map Prod.fst).Nodup := by
  have hperm : List.Perm ((value_counts l).map Prod.fst)
      (((firstKeys l).map fun k => (k, l.count k)).map Prod.fst) :=
    List.Perm.map Prod.fst (sortByCountDesc_perm _)
  rw [List.Perm.nodup_iff hperm, List.map_map]
  rw [show (Prod.fst ∘ fun k : α => (k, l.count k)) = id from rfl,
    List.map_id]
  exact firstKeys_nodup l

lemma value_counts_counts_sorted (l : List α) :
    ((value_counts l).map Prod.snd).Pairwise (fun m n => n ≤ m) :=
  List.pairwise_map.mpr (sortByCountDesc_sorted _)

lemma value_counts_sum (l : List α) :
    ((value_counts l).map Prod.snd).sum = l.length := by
  have hperm : List.Perm ((value_counts l).map Prod.snd)
      (((firstKeys l).map fun k => (k, l.count k)).map Prod.snd) :=
    List.Perm.map Prod.snd (sortByCountDesc_perm _)
  rw [List.Perm.sum_eq hperm, List.map_map]
  rw [show (Prod.snd ∘ fun k : α => (k, l.count k))
      = fun k => l.count k from rfl]
  exact sum_count_firstKeys l

end Aggregation

lemma predictChunks_spec {L : Type _}
    (normalize : List ℝ → Except String (List ℝ))
    (classify : List ℝ → Except String L) :
    ∀ (ws : List (List ℚ)) (ps : List L),
      predictChunks normalize classify ws = Except.ok ps →
      ps.length = ws.length ∧
      ∀ (i : ℕ) (hw : i < ws.length) (hp : i < ps.length),
        Except.bind (normalize (extract_statistical_features
          (ws.get ⟨i, hw⟩))) classify = Except.ok (ps.get ⟨i, hp⟩) := by
  intro ws
  induction ws with
  | nil =>
    intro ps h
    simp only [predictChunks, Except.ok.injEq] at h
    subst h
    exact ⟨rfl, fun i hw hp => absurd hw (by simp)⟩
  | cons c t ih =>
    intro ps h
    simp only [predictChunks] at h
    split at h
    · exact absurd h (by simp)
    · rename_i fs hn
      split at h
      · exact absurd h (by simp)
      · rename_i p hc
        split at h
        · exact absurd h (by simp)
        · rename_i qs hr
          simp only [Except.ok.injEq] at h
          subst h
          obtain ⟨hlen, hidx⟩ := ih qs hr
          refine ⟨by simp [hlen], ?_⟩
          intro i hw hp
          cases i with
          | zero =>
            simp only [List.get]
            rw [hn]
            exact hc
          | succ j =>
            simp only [List.get]
            exact hidx j (by simpa using hw) (by simpa using hp)

lemma predictChunks_ok_length {L : Type _}
    (normalize : List ℝ → Except String (List ℝ))
    (classify : List ℝ → Except String L)
    (ws : List (List ℚ)) (ps : List L)
    (h : predictChunks normalize classify ws = Except.ok ps) :
    ps.length = ws.length :=
  (predictChunks_spec normalize classify ws ps h).1

lemma process_ok_elim {L : Type _} [DecidableEq L]
    (normalize : List ℝ → Except String (List ℝ))
    (classify : List ℝ → Except String L)
    (chunk_size overlap : ℤ) (raw : List Line) (s : Summary L)
    (h : process_and_predict normalize classify chunk_size overlap raw =
      Except.ok s) :
    ∃ (chunks : List (List ℚ)) (preds : List L),
      get_chunks chunk_size overlap (parse_ecg_data raw) = some chunks ∧
      chunks ≠ [] ∧
      predictChunks normalize classify chunks = Except.ok preds ∧
      s = ⟨(value_counts preds).map Prod.fst,
        (value_counts preds).map Prod.snd, chunks.length⟩ := by
  rw [process_and_predict] at h
  split at h
  · rename_i s2 hbody
    split at hbody
    · exact absurd hbody (by simp)
    · rename_i chunks hg
      split at hbody
      · exact absurd hbody (by simp)
      · rename_i hne
        split at hbody
        · exact absurd hbody (by simp)
        · rename_i preds hp
          simp only [Except.ok.injEq] at hbody h
          refine ⟨chunks, preds, hg, ?_, hp, ?_⟩
          · intro hnil
            rw [hnil] at hne
            exact hne rfl
          · rw [← h, ← hbody]
  · exact absurd h (by simp)

/-- C6: when the per-chunk loop succeeds, the label sequence has exactly
one label per window, and the label at each position is exactly
`classify (normalize (extract window))` for the window at the same
position, in window order. -/
theorem pipeline_labels_per_window {L : Type _}
    (normalize : List ℝ → Except String (List ℝ))
    (classify : List ℝ → Except String L)
    (ws : List (List ℚ)) (ps : List L)
    (h : predictChunks normalize classify ws = Except.ok ps) :
    ps.length = ws.length ∧
    ∀ (i : ℕ) (hw : i < ws.length) (hp : i < ps.length),
      Except.bind (normalize (extract_statistical_features
        (ws.get ⟨i, hw⟩))) classify = Except.ok (ps.get ⟨i, hp⟩) :=
  predictChunks_spec normalize classify ws ps h

/-- Witness for C6: a one-window run with stub capabilities yields exactly
one label, the stub classification of that window. -/
theorem pipeline_labels_per_window_inst :
    ([0] : List ℕ).length = ([[(0 : ℚ)]] : List (List ℚ)).length ∧
    ∀ (i : ℕ) (hw : i < ([[(0 : ℚ)]] : List (List ℚ)).length)
      (hp : i < ([0] : List ℕ).length),
      Except.bind
        (((fun _ => Except.ok []) : List ℝ → Except String (List ℝ))
          (extract_statistical_features
            (([[(0 : ℚ)]] : List (List ℚ)).get ⟨i, hw⟩)))
        ((fun _ => Except.ok 0) : List ℝ → Except String ℕ) =
        Except.ok (([0] : List ℕ).get ⟨i, hp⟩) :=
  pipeline_labels_per_window (fun _ => Except.ok [])
    (fun _ => Except.ok (0 : ℕ)) [[(0 : ℚ)]] [0] rfl

/-- C9: every stage failure propagates to the boundary as the single
wrapped error string — the zero-step chunking `ValueError` and any
`normalize`/`classify` failure surface as
`"Error processing ECG data: " ++ cause`, never retried or suppressed —
and a summary is returned only when no stage failed. -/
theorem failure_propagation {L : Type _} [DecidableEq L]
    (normalize : List ℝ → Except String (List ℝ))
    (classify : List ℝ → Except String L)
    (chunk_size overlap : ℤ) (raw : List Line) :
    (get_chunks chunk_size overlap (parse_ecg_data raw) = none →
      process_and_predict normalize classify chunk_size overlap raw =
        Except.error
          ("Error processing ECG data: " ++ "range() arg 3 must not be zero")) ∧
    (∀ (chunks : List (List ℚ)) (e : String),
      get_chunks chunk_size overlap (parse_ecg_data raw) = some chunks →
      chunks.isEmpty = false →
      predictChunks normalize classify chunks = Except.error e →
      process_and_predict normalize classify chunk_size overlap raw =
        Except.error ("Error processing ECG data: " ++ e)) ∧
    (∀ s : Summary L,
      process_and_predict normalize classify chunk_size overlap raw =
        Except.ok s →
      ∃ (chunks : List (List ℚ)) (preds : List L),
        get_chunks chunk_size overlap (parse_ecg_data raw) = some chunks ∧
        chunks ≠ [] ∧
        predictChunks normalize classify chunks = Except.ok preds) := by
  refine ⟨?_, ?_, ?_⟩
  · intro hg
    rw [process_and_predict, hg]
  · intro chunks e hg hne hp
    cases chunks with
    | nil => simp at hne
    | cons c ct =>
      rw [process_and_predict]
      simp only [hg, List.isEmpty_cons, Bool.false_eq_true, if_false, hp]
  · intro s h
    obtain ⟨chunks, preds, hg, hne, hp, -⟩ :=
      process_ok_elim normalize classify chunk_size overlap raw s h
    exact ⟨chunks, preds, hg, hne, hp⟩

/-- Witness for C9: a classifier failure on a one-window input surfaces as
the wrapped pipeline error. -/
theorem failure_propagation_inst :
    process_and_predict (fun _ => Except.ok [])
      (fun _ => (Except.error "shape mismatch" : Except String ℕ))
      1 0 [Line.num 0] =
      Except.error ("Error processing ECG data: " ++ "shape mismatch") :=
  (failure_propagation (fun _ => Except.ok [])
    (fun _ => (Except.error "shape mismatch" : Except String ℕ))
    1 0 [Line.num 0]).2.1 [[0]] "shape mismatch" (by decide) rfl rfl

/-- C7: a successfully returned summary has pairwise-distinct labels, one
count per label, counts sorted in descending order, and counts summing to
the number of windows processed — which is the length of the label
sequence and the number of chunks. -/
theorem summary_invariants {L : Type _} [DecidableEq L]
    (normalize : List ℝ → Except String (List ℝ))
    (classify : List ℝ → Except String L)
    (chunk_size overlap : ℤ) (raw : List Line) (s : Summary L)
    (h : process_and_predict normalize classify chunk_size overlap raw =
      Except.ok s) :
    s.predictions.Nodup ∧
    s.predictions.length = s.counts.length ∧
    s.counts.Pairwise (fun m n => n ≤ m) ∧
    s.counts.sum = s.chunks_processed ∧
    ∃ (chunks : List (List ℚ)) (preds : List L),
      get_chunks chunk_size overlap (parse_ecg_data raw) = some chunks ∧
      predictChunks normalize classify chunks = Except.ok preds ∧
      s.counts.sum = preds.length ∧ s.chunks_processed = chunks.length := by
  obtain ⟨chunks, preds, hg, hne, hp, rfl⟩ :=
    process_ok_elim normalize classify chunk_size overlap raw s h
  refine ⟨value_counts_keys_nodup preds, by simp,
    value_counts_counts_sorted preds, ?_, chunks, preds, hg, hp, ?_, rfl⟩
  · simp only [value_counts_sum preds]
    exact predictChunks_ok_length normalize classify chunks preds hp
  · exact value_counts_sum preds

/-- Witness for C7: two identical windows classified by a stub model give
the summary with label list [0], counts [2], 2 chunks processed. -/
theorem summary_invariants_inst :
    ([0] : List ℕ).Nodup ∧
    ([0] : List ℕ).length = [2].length ∧
    ([2] : List ℕ).Pairwise (fun m n => n ≤ m) ∧
    ([2] : List ℕ).sum = 2 ∧
    ∃ (chunks : List (List ℚ)) (preds : List ℕ),
      get_chunks 1 0 (parse_ecg_data [Line.num 0, Line.num 0]) = some chunks ∧
      predictChunks (fun _ => Except.ok []) (fun _ => Except.ok 0) chunks =
        Except.ok preds ∧
      ([2] : List ℕ).sum = preds.length ∧ (2 : ℕ) = chunks.length :=
  summary_invariants (fun _ => Except.ok []) (fun _ => Except.ok 0) 1 0
    [Line.num 0, Line.num 0] ⟨[0], [2], 2⟩ (by decide)

/-- Spec 4.3 wording, first feature: the arithmetic mean of the window,
over the reals. -/
noncomputable def specMean (l : List ℚ) : ℝ :=
  (l.map fun x : ℚ => (x : ℝ)).sum / l.length

/-- Spec 4.3 wording, second feature: the population standard deviation,
the square root of the mean squared deviation from the mean. -/
noncomputable def specStdDev (l : List ℚ) : ℝ :=
  Real.sqrt ((l.map fun x : ℚ => ((x : ℝ) - specMean l) ^ 2).sum / l.length)

/-- Spec 4.3 wording, third feature: Fisher-Pearson skewness, the third
standardized moment with no bias correction. -/
noncomputable def specSkewness (l : List ℚ) : ℝ :=
  (l.map fun x : ℚ => (((x : ℝ) - specMean l) / specStdDev l) ^ 3).sum
    / l.length

/-- Spec 4.3 wording, fourth feature: excess kurtosis, the fourth
standardized moment minus 3, with no bias correction. -/
noncomputable def specExcessKurtosis (l : List ℚ) : ℝ :=
  (l.map fun x : ℚ => (((x : ℝ) - specMean l) / specStdDev l) ^ 4).sum
    / l.length - 3

lemma rat_cast_list_sum (l : List ℚ) :
    ((l.sum : ℚ) : ℝ) = (l.map fun x : ℚ => (x : ℝ)).sum := by
  induction l with
  | nil => simp
  | cons a t ih => simp [ih]

lemma np_mean_cast (l : List ℚ) : ((np_mean l : ℚ) : ℝ) = specMean l := by
  rw [np_mean, specMean, Rat.cast_div, rat_cast_list_sum]
  push_cast
  rfl

lemma centralMoment_cast (k : ℕ) (l : List ℚ) :
    ((centralMoment k l : ℚ) : ℝ)
      = (l.map fun x : ℚ => ((x : ℝ) - specMean l) ^ k).sum
        / (l.length : ℝ) := by
  rw [centralMoment, Rat.cast_div, rat_cast_list_sum, List.map_map,
    show (((l.length : ℕ) : ℚ) : ℝ) = ((l.length : ℕ) : ℝ) from
      Rat.cast_natCast _]
  congr 1
  congr 1
  refine List.map_congr_left fun x hx => ?_
  simp only [Function.comp]
  push_cast
  rw [np_mean_cast]

lemma m2_real_nonneg (l : List ℚ) : 0 ≤ ((centralMoment 2 l : ℚ) : ℝ) := by
  rw [centralMoment_cast]
  apply div_nonneg _ (Nat.cast_nonneg _)
  apply List.sum_nonneg
  intro x hx
  simp only [List.mem_map] at hx
  obtain ⟨y, -, rfl⟩ := hx
  exact sq_nonneg _

lemma rpow_three_halves {x : ℝ} (hx : 0 ≤ x) :
    x ^ ((3 : ℝ) / 2) = Real.sqrt x ^ 3 := by
  rw [Real.sqrt_eq_rpow, ← Real.rpow_natCast (x ^ ((1 : ℝ) / 2)) 3,
    ← Real.rpow_mul hx]
  norm_num

lemma sqrt_pow_four {x : ℝ} (hx : 0 ≤ x) : Real.sqrt x ^ 4 = x ^ 2 := by
  rw [show (4 : ℕ) = 2 * 2 from rfl, pow_mul, Real.sq_sqrt hx]

lemma np_std_eq (l : List ℚ) : np_std l = specStdDev l := by
  rw [np_std, specStdDev, centralMoment_cast]

lemma scipy_skew_eq (l : List ℚ) : scipy_skew l = specSkewness l := by
  have hnn := m2_real_nonneg l
  rw [scipy_skew, specSkewness, centralMoment_cast 3, rpow_three_halves hnn,
    ← np_std, np_std_eq]
  simp only [div_eq_mul_inv, mul_pow, inv_pow]
  rw [List.sum_map_mul_right]
  ring

lemma scipy_kurtosis_eq (l : List ℚ) :
    ((scipy_kurtosis l : ℚ) : ℝ) = specExcessKurtosis l := by
  have hnn := m2_real_nonneg l
  rw [scipy_kurtosis, specExcessKurtosis]
  push_cast
  rw [centralMoment_cast 4]
  rw [show ((centralMoment 2 l : ℚ) : ℝ) ^ 2 = specStdDev l ^ 4 from by
    rw [← np_std_eq l, np_std]
    exact (sqrt_pow_four hnn).symm]
  simp only [div_eq_mul_inv, mul_pow, inv_pow]
  rw [List.sum_map_mul_right]
  ring

lemma foldl_max_spec : ∀ (t : List ℚ) (a : ℚ),
    (t.foldl max a = a ∨ t.foldl max a ∈ t) ∧ a ≤ t.foldl max a ∧
      ∀ x ∈ t, x ≤ t.foldl max a := by
  intro t
  induction t with
  | nil => exact fun a => ⟨Or.inl rfl, le_refl a, by simp⟩
  | cons b s ih =>
    intro a
    obtain ⟨hmem, hle, hall⟩ := ih (max a b)
    simp only [List.foldl_cons]
    refine ⟨?_, le_trans (le_max_left a b) hle, ?_⟩
    · rcases hmem with h | h
      · rcases max_choice a b with hab | hab
        · exact Or.inl (h.trans hab)
        · refine Or.inr ?_
          rw [h, hab]
          exact List.mem_cons_self b s
      · exact Or.inr (List.mem_cons_of_mem b h)
    · intro x hx
      rcases List.mem_cons.mp hx with rfl | hx
      · exact le_trans (le_max_right a x) hle
      · exact hall x hx

lemma foldl_min_spec : ∀ (t : List ℚ) (a : ℚ),
    (t.foldl min a = a ∨ t.foldl min a ∈ t) ∧ t.foldl min a ≤ a ∧
      ∀ x ∈ t, t.foldl min a ≤ x := by
  intro t
  induction t with
  | nil => exact fun a => ⟨Or.inl rfl, le_refl a, by simp⟩
  | cons b s ih =>
    intro a
    obtain ⟨hmem, hle, hall⟩ := ih (min a b)
    simp only [List.foldl_cons]
    refine ⟨?_, le_trans hle (min_le_left a b), ?_⟩
    · rcases hmem with h | h
      · rcases min_choice a b with hab | hab
        · exact Or.inl (h.trans hab)
        · refine Or.inr ?_
          rw [h, hab]
          exact List.mem_cons_self b s
      · exact Or.inr (List.mem_cons_of_mem b h)
    · intro x hx
      rcases List.mem_cons.mp hx with rfl | hx
      · exact le_trans hle (min_le_right a x)
      · exact hall x hx

lemma listMax_mem (l : List ℚ) (hl : l ≠ []) : listMax l ∈ l := by
  cases l with
  | nil => exact absurd rfl hl
  | cons a t =>
    rw [listMax]
    rcases (foldl_max_spec t a).1 with h | h
    · rw [h]
      exact List.mem_cons_self a t
    · exact List.mem_cons_of_mem a h

lemma listMax_ge (l : List ℚ) : ∀ x ∈ l, x ≤ listMax l := by
  cases l with
  | nil => simp
  | cons a t =>
    intro x hx
    rw [listMax]
    rcases List.mem_cons.mp hx with rfl | hx
    · exact (foldl_max_spec t x).2.1
    · exact (foldl_max_spec t a).2.2 x hx

lemma listMin_mem (l : List ℚ) (hl : l ≠ []) : listMin l ∈ l := by
  cases l with
  | nil => exact absurd rfl hl
  | cons a t =>
    rw [listMin]
    rcases (foldl_min_spec t a).1 with h | h
    · rw [h]
      exact List.mem_cons_self a t
    · exact List.mem_cons_of_mem a h

lemma listMin_le (l : List ℚ) : ∀ x ∈ l, listMin l ≤ x := by
  cases l with
  | nil => simp
  | cons a t =>
    intro x hx
    rw [listMin]
    rcases List.mem_cons.mp hx with rfl | hx
    · exact (foldl_min_spec t x).2.1
    · exact (foldl_min_spec t a).2.2 x hx

/-- C5: on any non-empty window the extractor returns exactly 5 numbers in
the fixed order [arithmetic mean, population standard deviation,
Fisher-Pearson skewness without bias correction, excess kurtosis (fourth
standardized moment minus 3, no bias correction), peak-to-peak range
(max minus min)], where the peak value is the greatest element of the
window and the trough value the least. -/
theorem extract_features_order (w : List ℚ) (hw : w ≠ []) :
    extract_statistical_features w =
      [specMean w, specStdDev w, specSkewness w, specExcessKurtosis w,
        ((listMax w : ℚ) : ℝ) - ((listMin w : ℚ) : ℝ)] ∧
    (extract_statistical_features w).length = 5 ∧
    listMax w ∈ w ∧ (∀ x ∈ w, x ≤ listMax w) ∧
    listMin w ∈ w ∧ (∀ x ∈ w, listMin w ≤ x) := by
  refine ⟨?_, rfl, listMax_mem w hw, listMax_ge w, listMin_mem w hw,
    listMin_le w⟩
  rw [extract_statistical_features, np_mean_cast, np_std_eq, scipy_skew_eq,
    scipy_kurtosis_eq, np_ptp]
  push_cast
  rfl

/-- Witness for C5 on the one-sample window [0]. -/
theorem extract_features_order_inst :
    extract_statistical_features [(0 : ℚ)] =
      [specMean [(0 : ℚ)], specStdDev [(0 : ℚ)], specSkewness [(0 : ℚ)],
        specExcessKurtosis [(0 : ℚ)],
        ((listMax [(0 : ℚ)] : ℚ) : ℝ) - ((listMin [(0 : ℚ)] : ℚ) : ℝ)] ∧
    (extract_statistical_features [(0 : ℚ)]).length = 5 ∧
    listMax [(0 : ℚ)] ∈ [(0 : ℚ)] ∧
    (∀ x ∈ [(0 : ℚ)], x ≤ listMax [(0 : ℚ)]) ∧
    listMin [(0 : ℚ)] ∈ [(0 : ℚ)] ∧
    ∀ x ∈ [(0 : ℚ)], listMin [(0 : ℚ)] ≤ x :=
  extract_features_order [(0 : ℚ)] (by decide)

end MusicECG
